import Mathlib

/-!
Verification of the `bloom` package (a generic Bloom filter over any
comparable value type, hashed with `hash/maphash`).

The repository carries two variants of the implementation:

* variant 1: `Filter` with fields `bits, m, seeds, hasher, entries`, sizing
  done by `bloomParams`;
* variant 2: `Filter2` with an extra `k` field, sizing done by
  `optimalBitArraySize` and `optimalHashFunctions`.

Go `float64` arithmetic is modelled over the reals; `uint`/`uint64` values
are modelled as `ℕ`.  The `maphash` digest is an opaque hash family
`H : ℕ → List T → ℕ` (seed and written data to 64-bit value), kept as a
parameter throughout.
-/

namespace Bloom

/-- Scratch state of a `maphash.Hash`: the current seed and the sequence of
values written since the last reset. -/
structure MapHash (T : Type) where
  seed : ℕ
  data : List T
deriving DecidableEq

/-- Go `maphash.(*Hash).Reset`: discards the written data, keeps the seed. -/
def MapHash.reset {T : Type} (h : MapHash T) : MapHash T :=
  { h with data := [] }

/-- Go `maphash.(*Hash).SetSeed`: installs the seed and discards written data. -/
def MapHash.setSeed {T : Type} (_h : MapHash T) (s : ℕ) : MapHash T :=
  { seed := s, data := [] }

/-- Go `maphash.WriteComparable`: appends the written value. -/
def MapHash.write {T : Type} (h : MapHash T) (x : T) : MapHash T :=
  { h with data := h.data ++ [x] }

/-- Go `maphash.(*Hash).Sum64`: the digest of the current seed and data, as
given by the hash family `H`. -/
def MapHash.sum64 {T : Type} (H : ℕ → List T → ℕ) (h : MapHash T) : ℕ :=
  H h.seed h.data

/-- Variant 1 of `Filter[T]` from `bloom.go`: packed bit words, bit-array
size `m`, the `k` per-hash-function seeds, the reusable hashing scratch, and
the count of insertions. -/
structure Filter (T : Type) where
  bits : List ℕ
  m : ℕ
  seeds : List ℕ
  hasher : MapHash T
  entries : ℕ
deriving DecidableEq

variable {T : Type}

/-- Go `(*Filter).hashItem`: `Reset`, `SetSeed(seed)`,
`WriteComparable(item)`, `Sum64()`.  It returns the digest and, since the
scratch `hasher` is a field of the receiver, also the mutated filter. -/
def Filter.hashItem (H : ℕ → List T → ℕ) (bf : Filter T) (item : T) (seed : ℕ) :
    ℕ × Filter T :=
  let h1 := bf.hasher.reset
  let h2 := h1.setSeed seed
  let h3 := h2.write item
  (h3.sum64 H, { bf with hasher := h3 })

/-- One iteration of the loop body of `(*Filter).Add`: hash with one seed and
set the corresponding bit. -/
def Filter.addStep (H : ℕ → List T → ℕ) (item : T) (bf : Filter T) (seed : ℕ) :
    Filter T :=
  let hb := bf.hashItem H item seed
  let bf1 := hb.2
  let combinedHash := hb.1 % bf1.m
  let wordIndex := combinedHash / 64
  let bitOffset := combinedHash % 64
  { bf1 with
    bits := bf1.bits.set wordIndex (bf1.bits.getD wordIndex 0 ||| 1 <<< bitOffset) }

/-- Go `(*Filter).Add`: increment `entries`, then set one bit per seed. -/
def Filter.Add (H : ℕ → List T → ℕ) (bf : Filter T) (item : T) : Filter T :=
  bf.seeds.foldl (Filter.addStep H item) { bf with entries := bf.entries + 1 }

/-- The loop of Go `(*Filter).Contains` over the remaining seeds: it returns
`false` at the first unset bit and otherwise recurses; the mutated filter
(its hashing scratch changes) is returned alongside the boolean. -/
def containsAux (H : ℕ → List T → ℕ) (item : T) : List ℕ → Filter T → Bool × Filter T
  | [], bf => (true, bf)
  | seed :: rest, bf =>
    let hb := bf.hashItem H item seed
    let bf1 := hb.2
    let combinedHash := hb.1 % bf1.m
    let wordIndex := combinedHash / 64
    let bitOffset := combinedHash % 64
    if bf1.bits.getD wordIndex 0 &&& 1 <<< bitOffset = 0 then (false, bf1)
    else containsAux H item rest bf1

/-- Go `(*Filter).Contains` together with its effect on the receiver. -/
def Filter.containsSt (H : ℕ → List T → ℕ) (bf : Filter T) (item : T) :
    Bool × Filter T :=
  containsAux H item bf.seeds bf

/-- The boolean result of Go `(*Filter).Contains`. -/
def Filter.Contains (H : ℕ → List T → ℕ) (bf : Filter T) (item : T) : Bool :=
  (bf.containsSt H item).1

/-- Variant 1 of `(*Filter).EstimatedFalsePositiveRate`, computed stepwise as
in the source (`probBitIsZero`, `probBitIsOne`, `math.Pow`). -/
noncomputable def Filter.EstimatedFalsePositiveRate (bf : Filter T) : ℝ :=
  if bf.entries = 0 then 0
  else
    let k : ℝ := bf.seeds.length
    let n : ℝ := bf.entries
    let m : ℝ := bf.m
    let probBitIsZero := Real.exp (-k * n / m)
    let probBitIsOne := 1 - probBitIsZero
    probBitIsOne ^ k

/-- Variant 1 sizing, Go `bloomParams`: the bit count is
`uint(Ceil(-n*Log(p)/Pow(Log(2),2)))` and the hash-function count is
`max(uint(Ceil(m/n*Log(2))), 1)` where `m` is the unrounded real bit count. -/
noncomputable def bloomParams (expectedItems : ℕ) (falsePositiveRate : ℝ) : ℕ × ℕ :=
  let n : ℝ := expectedItems
  let p := falsePositiveRate
  let m := -n * Real.log p / Real.log 2 ^ (2 : ℝ)
  let bitsNeeded := ⌈m⌉₊
  let k := m / n * Real.log 2
  let numHashFunctions := ⌈k⌉₊
  (bitsNeeded, max numHashFunctions 1)

/-- Go `NewBloomFilter` (variant 1).  Seed randomness is modelled by the
supplied generator `seedGen`, giving the seed produced for each index. -/
noncomputable def NewBloomFilter (T : Type) (expectedItems : ℕ)
    (falsePositiveRate : ℝ) (seedGen : ℕ → ℕ) : Filter T :=
  let mk := bloomParams expectedItems falsePositiveRate
  { bits := List.replicate ((mk.1 + 63) / 64) 0
    m := mk.1
    seeds := (List.range mk.2).map seedGen
    hasher := { seed := 0, data := [] }
    entries := 0 }

/-- Variant 2 sizing, Go `optimalBitArraySize`. -/
noncomputable def optimalBitArraySize (n : ℕ) (p : ℝ) : ℕ :=
  ⌈-(n : ℝ) * Real.log p / Real.log 2 ^ (2 : ℝ)⌉₊

/-- Variant 2 sizing, Go `optimalHashFunctions`: hash-function count from the
rounded bit-array size `m`, clamped to at least 1. -/
noncomputable def optimalHashFunctions (n m : ℕ) : ℕ :=
  let k := ⌈(m : ℝ) / (n : ℝ) * Real.log 2⌉₊
  if k < 1 then 1 else k

/-- Variant 2 of `Filter[T]`, which stores the hash-function count `k` as a
field. -/
structure Filter2 (T : Type) where
  bits : List ℕ
  k : ℕ
  m : ℕ
  seeds : List ℕ
  hasher : MapHash T
  entries : ℕ
deriving DecidableEq

/-- Variant 2 `(*Filter).hashItem` (same body as variant 1). -/
def Filter2.hashItem (H : ℕ → List T → ℕ) (bf : Filter2 T) (item : T) (seed : ℕ) :
    ℕ × Filter2 T :=
  let h1 := bf.hasher.reset
  let h2 := h1.setSeed seed
  let h3 := h2.write item
  (h3.sum64 H, { bf with hasher := h3 })

/-- One iteration of the loop body of variant 2 `(*Filter).Add`, indexed by
the loop counter `i` with seed `bf.seeds[i]`. -/
def Filter2.addIdx (H : ℕ → List T → ℕ) (item : T) (bf : Filter2 T) (i : ℕ) :
    Filter2 T :=
  let hb := bf.hashItem H item (bf.seeds.getD i 0)
  let bf1 := hb.2
  let combinedHash := hb.1 % bf1.m
  let wordIndex := combinedHash / 64
  let bitOffset := combinedHash % 64
  { bf1 with
    bits := bf1.bits.set wordIndex (bf1.bits.getD wordIndex 0 ||| 1 <<< bitOffset) }

/-- Variant 2 `(*Filter).Add`: increment `entries`, then loop `i` from `0` to
`bf.k - 1`. -/
def Filter2.Add (H : ℕ → List T → ℕ) (bf : Filter2 T) (item : T) : Filter2 T :=
  (List.range bf.k).foldl (Filter2.addIdx H item) { bf with entries := bf.entries + 1 }

/-- The loop of variant 2 `(*Filter).Contains` over the remaining loop
indices. -/
def containsAux2 (H : ℕ → List T → ℕ) (item : T) : List ℕ → Filter2 T → Bool × Filter2 T
  | [], bf => (true, bf)
  | i :: rest, bf =>
    let hb := bf.hashItem H item (bf.seeds.getD i 0)
    let bf1 := hb.2
    let combinedHash := hb.1 % bf1.m
    let wordIndex := combinedHash / 64
    let bitOffset := combinedHash % 64
    if bf1.bits.getD wordIndex 0 &&& 1 <<< bitOffset = 0 then (false, bf1)
    else containsAux2 H item rest bf1

/-- Variant 2 `(*Filter).Contains` together with its effect on the receiver. -/
def Filter2.containsSt (H : ℕ → List T → ℕ) (bf : Filter2 T) (item : T) :
    Bool × Filter2 T :=
  containsAux2 H item (List.range bf.k) bf

/-- The boolean result of variant 2 `(*Filter).Contains`. -/
def Filter2.Contains (H : ℕ → List T → ℕ) (bf : Filter2 T) (item : T) : Bool :=
  (bf.containsSt H item).1

/-- Variant 2 of `(*Filter).EstimatedFalsePositiveRate` (one-line form using
the stored `k`). -/
noncomputable def Filter2.EstimatedFalsePositiveRate (bf : Filter2 T) : ℝ :=
  if bf.entries = 0 then 0
  else (1 - Real.exp (-(bf.k : ℝ) * bf.entries / bf.m)) ^ (bf.k : ℝ)

/-- Go `NewBloomFilter` (variant 2). -/
noncomputable def NewBloomFilter2 (T : Type) (expectedItems : ℕ)
    (falsePositiveRate : ℝ) (seedGen : ℕ → ℕ) : Filter2 T :=
  let m := optimalBitArraySize expectedItems falsePositiveRate
  let k := optimalHashFunctions expectedItems m
  { bits := List.replicate ((m + 63) / 64) 0
    k := k
    m := m
    seeds := (List.range k).map seedGen
    hasher := { seed := 0, data := [] }
    entries := 0 }

/-! Derived notions used to state the properties. -/

/-- Setting the bit at absolute position `pos` in the packed word list, as
`Add` does: word `pos / 64`, offset `pos % 64`. -/
def setBit (bits : List ℕ) (pos : ℕ) : List ℕ :=
  bits.set (pos / 64) (bits.getD (pos / 64) 0 ||| 1 <<< (pos % 64))

/-- Setting a list of absolute bit positions in order. -/
def setBits (bits : List ℕ) (ps : List ℕ) : List ℕ :=
  ps.foldl setBit bits

/-- Whether the bit at absolute position `pos` is set in the packed word
list. -/
def testPos (bits : List ℕ) (pos : ℕ) : Bool :=
  (bits.getD (pos / 64) 0).testBit (pos % 64)

/-- The `k` bit positions of `item`, as a pure function of the filter's
stored seeds and `m`. -/
def Filter.positions (H : ℕ → List T → ℕ) (bf : Filter T) (item : T) : List ℕ :=
  bf.seeds.map fun s => H s [item] % bf.m

/-- The `k` bit positions of `item` as actually computed by the hashing loop,
threading the mutable hashing scratch from one hash to the next. -/
def hashPositionsAux (H : ℕ → List T → ℕ) (item : T) :
    List ℕ → Filter T → List ℕ × Filter T
  | [], bf => ([], bf)
  | s :: rest, bf =>
    let hb := bf.hashItem H item s
    let r := hashPositionsAux H item rest hb.2
    (hb.1 % hb.2.m :: r.1, r.2)

/-- The bit positions `item` hashes to on `bf`, computed statefully. -/
def Filter.hashPositions (H : ℕ → List T → ℕ) (bf : Filter T) (item : T) : List ℕ :=
  (hashPositionsAux H item bf.seeds bf).1

/-- Applying a sequence of `Add` calls in order. -/
def applyAddList (H : ℕ → List T → ℕ) (bf : Filter T) (items : List T) : Filter T :=
  items.foldl (Filter.Add H) bf

/-- An operation on a filter: an `Add` call or a `Contains` call (whose
effect on the receiver is its mutation of the hashing scratch). -/
inductive Op (T : Type) where
  | add (x : T)
  | contains (x : T)

/-- The state after one operation. -/
def applyOp (H : ℕ → List T → ℕ) (bf : Filter T) : Op T → Filter T
  | Op.add x => bf.Add H x
  | Op.contains x => (bf.containsSt H x).2

/-- The state after a sequence of operations. -/
def applyOps (H : ℕ → List T → ℕ) (bf : Filter T) (ops : List (Op T)) : Filter T :=
  ops.foldl (applyOp H) bf

/-- Well-formedness established by construction: a positive bit-array size
and a backing word list of the rounded-up length. -/
def Filter.WF (bf : Filter T) : Prop :=
  0 < bf.m ∧ bf.bits.length = (bf.m + 63) / 64

/-- The view of a variant 2 filter as a variant 1 filter (drop the `k`
field). -/
def toF1 (bf : Filter2 T) : Filter T :=
  { bits := bf.bits, m := bf.m, seeds := bf.seeds, hasher := bf.hasher,
    entries := bf.entries }

/-- The false-positive formula as the spec states it:
`(1 - e^(-k*entries/m))^k`. -/
noncomputable def specFPR (k entries m : ℕ) : ℝ :=
  (1 - Real.exp (-((k : ℝ) * entries / m))) ^ (k : ℝ)

/-- The bit-array size formula as the spec states it:
`ceil(-n * ln(p) / (ln 2)^2)`, an integer. -/
noncomputable def specOptimalBits (n : ℕ) (p : ℝ) : ℤ :=
  ⌈-(n : ℝ) * Real.log p / Real.log 2 ^ 2⌉

/-- A concrete hash family on natural numbers, used to instantiate the
parametric theorems on concrete inputs. -/
def H0 : ℕ → List ℕ → ℕ := fun s d => s + d.foldl (· + 17 * ·) 0

/-- A concrete small filter state (one word, `m = 1`, one seed, bit 0 set). -/
def bf0 : Filter ℕ :=
  { bits := [1], m := 1, seeds := [5], hasher := { seed := 0, data := [] },
    entries := 1 }

/-- A concrete small variant 2 filter state with `k = len(seeds)`. -/
def bf2c : Filter2 ℕ :=
  { bits := [1], k := 1, m := 1, seeds := [5],
    hasher := { seed := 0, data := [] }, entries := 1 }

/-! Basic lemmas on words, bits and packed bit lists. -/

theorem and_shiftLeft_eq_zero_iff (w b : ℕ) :
    w &&& 1 <<< b = 0 ↔ w.testBit b = false := by
  rw [Nat.one_shiftLeft]
  constructor
  · intro h
    have h2 := congrArg (fun x => Nat.testBit x b) h
    simpa [Nat.testBit_and, Nat.testBit_two_pow_self] using h2
  · intro h
    apply Nat.eq_of_testBit_eq
    intro i
    simp only [Nat.testBit_and, Nat.testBit_two_pow, Nat.zero_testBit]
    by_cases hib : b = i
    · subst hib; simp [h]
    · simp [hib]

theorem getD_set_self (l : List ℕ) (i v : ℕ) (h : i < l.length) :
    (l.set i v).getD i 0 = v := by
  simp [List.getD_eq_getElem?_getD, List.getElem?_set_self, h]

theorem getD_set_ne (l : List ℕ) (i j v : ℕ) (h : i ≠ j) :
    (l.set i v).getD j 0 = l.getD j 0 := by
  simp [List.getD_eq_getElem?_getD, List.getElem?_set_ne h]

theorem range_map_getD (l : List ℕ) :
    (List.range l.length).map (fun i => l.getD i 0) = l := by
  apply List.ext_getElem
  · simp
  · intro n h1 h2
    simp [List.getD_eq_getElem?_getD, List.getElem?_eq_getElem h2]

theorem length_setBit (bits : List ℕ) (pos : ℕ) :
    (setBit bits pos).length = bits.length := by
  simp [setBit]

theorem length_setBits (bits ps : List ℕ) :
    (setBits bits ps).length = bits.length := by
  induction ps generalizing bits with
  | nil => rfl
  | cons p rest ih =>
    show (setBits (setBit bits p) rest).length = bits.length
    rw [ih, length_setBit]

theorem testPos_setBit_self (bits : List ℕ) (pos : ℕ)
    (h : pos / 64 < bits.length) : testPos (setBit bits pos) pos = true := by
  simp only [testPos, setBit]
  rw [getD_set_self _ _ _ h]
  simp [Nat.testBit_or, Nat.one_shiftLeft, Nat.testBit_two_pow_self]

theorem testBit_setBit_mono (bits : List ℕ) (p i j : ℕ)
    (h : (bits.getD i 0).testBit j = true) :
    ((setBit bits p).getD i 0).testBit j = true := by
  simp only [setBit]
  by_cases hw : p / 64 = i
  · subst hw
    by_cases hl : p / 64 < bits.length
    · rw [getD_set_self _ _ _ hl, Nat.testBit_or, h]
      simp
    · rw [List.set_eq_of_length_le (Nat.le_of_not_lt hl)]
      exact h
  · rw [getD_set_ne _ _ _ _ hw]
    exact h

theorem testPos_setBit_mono (bits : List ℕ) (p q : ℕ)
    (h : testPos bits q = true) : testPos (setBit bits p) q = true :=
  testBit_setBit_mono bits p (q / 64) (q % 64) h

theorem testBit_setBits_mono (bits ps : List ℕ) (i j : ℕ)
    (h : (bits.getD i 0).testBit j = true) :
    ((setBits bits ps).getD i 0).testBit j = true := by
  induction ps generalizing bits with
  | nil => exact h
  | cons p rest ih => exact ih (setBit bits p) (testBit_setBit_mono bits p i j h)

theorem testPos_setBits_mono (bits : List ℕ) (ps : List ℕ) (q : ℕ)
    (h : testPos bits q = true) : testPos (setBits bits ps) q = true := by
  induction ps generalizing bits with
  | nil => exact h
  | cons p rest ih => exact ih (setBit bits p) (testPos_setBit_mono bits p q h)

theorem testPos_setBits_self (bits : List ℕ) (ps : List ℕ) (q : ℕ)
    (hq : q ∈ ps) (hlen : ∀ p ∈ ps, p / 64 < bits.length) :
    testPos (setBits bits ps) q = true := by
  induction ps generalizing bits with
  | nil => cases hq
  | cons p rest ih =>
    rcases List.mem_cons.mp hq with h | h
    · subst h
      exact testPos_setBits_mono _ rest q
        (testPos_setBit_self bits q (hlen q (List.mem_cons_self q rest)))
    · exact ih (setBit bits p) h fun r hr => by
        rw [length_setBit]
        exact hlen r (List.mem_cons_of_mem p hr)

/-! Structural lemmas about `hashItem`, `Add` and `Contains` (variant 1). -/

theorem hashItem_fst (H : ℕ → List T → ℕ) (bf : Filter T) (item : T) (s : ℕ) :
    (bf.hashItem H item s).1 = H s [item] := rfl

theorem hashItem_snd (H : ℕ → List T → ℕ) (bf : Filter T) (item : T) (s : ℕ) :
    (bf.hashItem H item s).2 = { bf with hasher := { seed := s, data := [item] } } := rfl

theorem addStep_eq (H : ℕ → List T → ℕ) (item : T) (bf : Filter T) (s : ℕ) :
    Filter.addStep H item bf s =
      { bf with hasher := { seed := s, data := [item] },
                bits := setBit bf.bits (H s [item] % bf.m) } := rfl

theorem foldl_addStep_m (H : ℕ → List T → ℕ) (item : T) (ss : List ℕ)
    (bf : Filter T) : (ss.foldl (Filter.addStep H item) bf).m = bf.m := by
  induction ss generalizing bf with
  | nil => rfl
  | cons s rest ih => simpa [addStep_eq] using ih _

theorem foldl_addStep_seeds (H : ℕ → List T → ℕ) (item : T) (ss : List ℕ)
    (bf : Filter T) : (ss.foldl (Filter.addStep H item) bf).seeds = bf.seeds := by
  induction ss generalizing bf with
  | nil => rfl
  | cons s rest ih => simpa [addStep_eq] using ih _

theorem foldl_addStep_entries (H : ℕ → List T → ℕ) (item : T) (ss : List ℕ)
    (bf : Filter T) : (ss.foldl (Filter.addStep H item) bf).entries = bf.entries := by
  induction ss generalizing bf with
  | nil => rfl
  | cons s rest ih => simpa [addStep_eq] using ih _

theorem foldl_addStep_bits (H : ℕ → List T → ℕ) (item : T) (ss : List ℕ)
    (bf : Filter T) :
    (ss.foldl (Filter.addStep H item) bf).bits =
      setBits bf.bits (ss.map fun s => H s [item] % bf.m) := by
  induction ss generalizing bf with
  | nil => rfl
  | cons s rest ih =>
    simp only [List.foldl_cons, List.map_cons]
    rw [ih]
    simp [addStep_eq, setBits]

theorem Add_m (H : ℕ → List T → ℕ) (bf : Filter T) (item : T) :
    (bf.Add H item).m = bf.m := by
  simp [Filter.Add, foldl_addStep_m]

theorem Add_seeds (H : ℕ → List T → ℕ) (bf : Filter T) (item : T) :
    (bf.Add H item).seeds = bf.seeds := by
  simp [Filter.Add, foldl_addStep_seeds]

theorem Add_entries (H : ℕ → List T → ℕ) (bf : Filter T) (item : T) :
    (bf.Add H item).entries = bf.entries + 1 := by
  simp [Filter.Add, foldl_addStep_entries]

theorem Add_bits (H : ℕ → List T → ℕ) (bf : Filter T) (item : T) :
    (bf.Add H item).bits = setBits bf.bits (bf.positions H item) := by
  simp [Filter.Add, foldl_addStep_bits, Filter.positions]

theorem containsAux_snd_bits (H : ℕ → List T → ℕ) (item : T) (ss : List ℕ)
    (bf : Filter T) : (containsAux H item ss bf).2.bits = bf.bits := by
  induction ss generalizing bf with
  | nil => rfl
  | cons s rest ih =>
    simp only [containsAux]
    split
    · rfl
    · simpa using ih _

theorem containsAux_snd_m (H : ℕ → List T → ℕ) (item : T) (ss : List ℕ)
    (bf : Filter T) : (containsAux H item ss bf).2.m = bf.m := by
  induction ss generalizing bf with
  | nil => rfl
  | cons s rest ih =>
    simp only [containsAux]
    split
    · rfl
    · simpa using ih _

theorem containsAux_snd_seeds (H : ℕ → List T → ℕ) (item : T) (ss : List ℕ)
    (bf : Filter T) : (containsAux H item ss bf).2.seeds = bf.seeds := by
  induction ss generalizing bf with
  | nil => rfl
  | cons s rest ih =>
    simp only [containsAux]
    split
    · rfl
    · simpa using ih _

theorem containsAux_snd_entries (H : ℕ → List T → ℕ) (item : T) (ss : List ℕ)
    (bf : Filter T) : (containsAux H item ss bf).2.entries = bf.entries := by
  induction ss generalizing bf with
  | nil => rfl
  | cons s rest ih =>
    simp only [containsAux]
    split
    · rfl
    · simpa using ih _

theorem containsAux_fst (H : ℕ → List T → ℕ) (item : T) (ss : List ℕ)
    (bf : Filter T) :
    (containsAux H item ss bf).1 = true ↔
      ∀ s ∈ ss, testPos bf.bits (H s [item] % bf.m) = true := by
  induction ss generalizing bf with
  | nil => simp [containsAux]
  | cons s rest ih =>
    simp only [containsAux, hashItem_snd, hashItem_fst]
    split
    case isTrue h =>
      have hfalse : testPos bf.bits (H s [item] % bf.m) = false := by
        have h2 := (and_shiftLeft_eq_zero_iff _ _).mp h
        simpa [testPos] using h2
      constructor
      · intro hcontra; cases hcontra
      · intro hall
        have h3 := hall s (List.mem_cons_self s rest)
        rw [hfalse] at h3
        cases h3
    case isFalse h =>
      have htrue : testPos bf.bits (H s [item] % bf.m) = true := by
        cases hts : testPos bf.bits (H s [item] % bf.m) with
        | true => rfl
        | false =>
          exact absurd ((and_shiftLeft_eq_zero_iff _ _).mpr
            (by simpa [testPos] using hts)) h
      rw [ih]
      constructor
      · intro hall r hr
        rcases List.mem_cons.mp hr with hr | hr
        · subst hr; exact htrue
        · exact hall r hr
      · intro hall r hr
        exact hall r (List.mem_cons_of_mem s hr)

theorem Contains_iff (H : ℕ → List T → ℕ) (bf : Filter T) (item : T) :
    bf.Contains H item = true ↔
      ∀ p ∈ bf.positions H item, testPos bf.bits p = true := by
  rw [Filter.Contains, Filter.containsSt, containsAux_fst, Filter.positions]
  simp

theorem hashPositionsAux_fst (H : ℕ → List T → ℕ) (item : T) (ss : List ℕ)
    (bf : Filter T) :
    (hashPositionsAux H item ss bf).1 = ss.map fun s => H s [item] % bf.m := by
  induction ss generalizing bf with
  | nil => rfl
  | cons s rest ih =>
    simp only [hashPositionsAux, hashItem_snd, hashItem_fst, List.map_cons]
    rw [ih]

theorem hashPositions_eq_positions (H : ℕ → List T → ℕ) (bf : Filter T) (item : T) :
    bf.hashPositions H item = bf.positions H item := by
  rw [Filter.hashPositions, hashPositionsAux_fst, Filter.positions]

theorem positions_congr (H : ℕ → List T → ℕ) (bf1 bf2 : Filter T) (item : T)
    (hs : bf1.seeds = bf2.seeds) (hm : bf1.m = bf2.m) :
    bf1.positions H item = bf2.positions H item := by
  rw [Filter.positions, Filter.positions, hs, hm]

/-! Preservation across sequences of operations. -/

theorem applyAddList_m (H : ℕ → List T → ℕ) (bf : Filter T) (l : List T) :
    (applyAddList H bf l).m = bf.m := by
  induction l generalizing bf with
  | nil => rfl
  | cons x rest ih =>
    show (applyAddList H (bf.Add H x) rest).m = bf.m
    rw [ih, Add_m]

theorem applyAddList_seeds (H : ℕ → List T → ℕ) (bf : Filter T) (l : List T) :
    (applyAddList H bf l).seeds = bf.seeds := by
  induction l generalizing bf with
  | nil => rfl
  | cons x rest ih =>
    show (applyAddList H (bf.Add H x) rest).seeds = bf.seeds
    rw [ih, Add_seeds]

theorem applyAddList_bits_length (H : ℕ → List T → ℕ) (bf : Filter T) (l : List T) :
    (applyAddList H bf l).bits.length = bf.bits.length := by
  induction l generalizing bf with
  | nil => rfl
  | cons x rest ih =>
    show (applyAddList H (bf.Add H x) rest).bits.length = bf.bits.length
    rw [ih, Add_bits, length_setBits]

theorem applyAddList_testPos_mono (H : ℕ → List T → ℕ) (bf : Filter T)
    (l : List T) (q : ℕ) (h : testPos bf.bits q = true) :
    testPos (applyAddList H bf l).bits q = true := by
  induction l generalizing bf with
  | nil => exact h
  | cons x rest ih =>
    show testPos (applyAddList H (bf.Add H x) rest).bits q = true
    apply ih
    rw [Add_bits]
    exact testPos_setBits_mono _ _ _ h

theorem applyOp_m (H : ℕ → List T → ℕ) (bf : Filter T) (op : Op T) :
    (applyOp H bf op).m = bf.m := by
  cases op with
  | add x => exact Add_m H bf x
  | contains x => exact containsAux_snd_m H x bf.seeds bf

theorem applyOp_seeds (H : ℕ → List T → ℕ) (bf : Filter T) (op : Op T) :
    (applyOp H bf op).seeds = bf.seeds := by
  cases op with
  | add x => exact Add_seeds H bf x
  | contains x => exact containsAux_snd_seeds H x bf.seeds bf

theorem applyOps_m (H : ℕ → List T → ℕ) (bf : Filter T) (ops : List (Op T)) :
    (applyOps H bf ops).m = bf.m := by
  induction ops generalizing bf with
  | nil => rfl
  | cons op rest ih =>
    show (applyOps H (applyOp H bf op) rest).m = bf.m
    rw [ih, applyOp_m]

theorem applyOps_seeds (H : ℕ → List T → ℕ) (bf : Filter T) (ops : List (Op T)) :
    (applyOps H bf ops).seeds = bf.seeds := by
  induction ops generalizing bf with
  | nil => rfl
  | cons op rest ih =>
    show (applyOps H (applyOp H bf op) rest).seeds = bf.seeds
    rw [ih, applyOp_seeds]

theorem applyOps_testPos_mono (H : ℕ → List T → ℕ) (bf : Filter T)
    (ops : List (Op T)) (q : ℕ) (h : testPos bf.bits q = true) :
    testPos (applyOps H bf ops).bits q = true := by
  induction ops generalizing bf with
  | nil => exact h
  | cons op rest ih =>
    show testPos (applyOps H (applyOp H bf op) rest).bits q = true
    apply ih
    cases op with
    | add x =>
      show testPos ((bf.Add H x).bits) q = true
      rw [Add_bits]
      exact testPos_setBits_mono _ _ _ h
    | contains x =>
      show testPos ((bf.containsSt H x).2.bits) q = true
      rw [Filter.containsSt, containsAux_snd_bits]
      exact h

/-! Well-formedness and the sizing mathematics. -/

theorem positions_lt (H : ℕ → List T → ℕ) (bf : Filter T) (item : T)
    (hm : 0 < bf.m) : ∀ p ∈ bf.positions H item, p < bf.m := by
  intro p hp
  rcases List.mem_map.mp hp with ⟨s, _, rfl⟩
  exact Nat.mod_lt _ hm

theorem wordIndex_lt (mval len p : ℕ)
    (hlen : len = (mval + 63) / 64) (hp : p < mval) : p / 64 < len := by
  omega

theorem WF_Add (H : ℕ → List T → ℕ) (bf : Filter T) (x : T) (hwf : bf.WF) :
    (bf.Add H x).WF := by
  obtain ⟨hm, hlen⟩ := hwf
  constructor
  · rw [Add_m]; exact hm
  · rw [Add_bits, length_setBits, Add_m, hlen]

theorem WF_applyAddList (H : ℕ → List T → ℕ) (bf : Filter T) (l : List T)
    (hwf : bf.WF) : (applyAddList H bf l).WF := by
  obtain ⟨hm, hlen⟩ := hwf
  constructor
  · rw [applyAddList_m]; exact hm
  · rw [applyAddList_bits_length, applyAddList_m, hlen]

theorem bloomParams_fst_pos (n : ℕ) (p : ℝ) (hn : 1 ≤ n) (hp0 : 0 < p)
    (hp1 : p < 1) : 0 < (bloomParams n p).1 := by
  simp only [bloomParams]
  apply Nat.ceil_pos.mpr
  have hlp : Real.log p < 0 := Real.log_neg hp0 hp1
  have hl2 : 0 < Real.log 2 := Real.log_pos one_lt_two
  have hn' : (0 : ℝ) < n := by exact_mod_cast hn
  apply div_pos
  · nlinarith
  · exact Real.rpow_pos_of_pos hl2 2

theorem optimalBitArraySize_pos (n : ℕ) (p : ℝ) (hn : 1 ≤ n) (hp0 : 0 < p)
    (hp1 : p < 1) : 0 < optimalBitArraySize n p := by
  simp only [optimalBitArraySize]
  apply Nat.ceil_pos.mpr
  have hlp : Real.log p < 0 := Real.log_neg hp0 hp1
  have hl2 : 0 < Real.log 2 := Real.log_pos one_lt_two
  have hn' : (0 : ℝ) < n := by exact_mod_cast hn
  apply div_pos
  · nlinarith
  · exact Real.rpow_pos_of_pos hl2 2

theorem bloomParams_snd_pos (n : ℕ) (p : ℝ) : 0 < (bloomParams n p).2 := by
  simp only [bloomParams]
  omega

theorem optimalHashFunctions_pos (n m : ℕ) : 0 < optimalHashFunctions n m := by
  simp only [optimalHashFunctions]
  split <;> omega

theorem WF_new (T : Type) (n : ℕ) (p : ℝ) (sg : ℕ → ℕ) (hn : 1 ≤ n)
    (hp0 : 0 < p) (hp1 : p < 1) : (NewBloomFilter T n p sg).WF := by
  exact ⟨bloomParams_fst_pos n p hn hp0 hp1, by simp [NewBloomFilter]⟩

theorem new_m (T : Type) (n : ℕ) (p : ℝ) (sg : ℕ → ℕ) :
    (NewBloomFilter T n p sg).m = (bloomParams n p).1 := rfl

theorem applyOps_testBit_mono (H : ℕ → List T → ℕ) (bf : Filter T)
    (ops : List (Op T)) (i j : ℕ) (h : (bf.bits.getD i 0).testBit j = true) :
    ((applyOps H bf ops).bits.getD i 0).testBit j = true := by
  induction ops generalizing bf with
  | nil => exact h
  | cons op rest ih =>
    show ((applyOps H (applyOp H bf op) rest).bits.getD i 0).testBit j = true
    apply ih
    cases op with
    | add x =>
      show (((bf.Add H x).bits).getD i 0).testBit j = true
      rw [Add_bits]
      exact testBit_setBits_mono _ _ _ _ h
    | contains x =>
      show (((bf.containsSt H x).2.bits).getD i 0).testBit j = true
      rw [Filter.containsSt, containsAux_snd_bits]
      exact h

theorem contains_after_adds (H : ℕ → List T → ℕ) (bf : Filter T) (x : T)
    (post : List T) (hwf : bf.WF) :
    (applyAddList H (bf.Add H x) post).Contains H x = true := by
  rw [Contains_iff]
  intro pos hpos
  have hps : (applyAddList H (bf.Add H x) post).positions H x = bf.positions H x := by
    apply positions_congr
    · rw [applyAddList_seeds, Add_seeds]
    · rw [applyAddList_m, Add_m]
  rw [hps] at hpos
  apply applyAddList_testPos_mono
  rw [Add_bits]
  apply testPos_setBits_self _ _ _ hpos
  intro q hq
  exact wordIndex_lt bf.m _ q hwf.2 (positions_lt H bf x hwf.1 q hq)

/-! The false-positive-rate estimator. -/

theorem fpr_eq (bf : Filter T) :
    bf.EstimatedFalsePositiveRate =
      if bf.entries = 0 then 0 else specFPR bf.seeds.length bf.entries bf.m := by
  rw [Filter.EstimatedFalsePositiveRate, specFPR]
  split
  · rfl
  · have harg : -(bf.seeds.length : ℝ) * bf.entries / bf.m =
        -((bf.seeds.length : ℝ) * bf.entries / bf.m) := by ring
    show (1 - Real.exp (-(bf.seeds.length : ℝ) * bf.entries / bf.m)) ^
        ((bf.seeds.length : ℕ) : ℝ) =
      (1 - Real.exp (-((bf.seeds.length : ℝ) * bf.entries / bf.m))) ^
        ((bf.seeds.length : ℕ) : ℝ)
    rw [harg]

theorem fpr2_eq (bf : Filter2 T) :
    bf.EstimatedFalsePositiveRate =
      if bf.entries = 0 then 0 else specFPR bf.k bf.entries bf.m := by
  rw [Filter2.EstimatedFalsePositiveRate, specFPR]
  split
  · rfl
  · have harg : -(bf.k : ℝ) * bf.entries / bf.m =
        -((bf.k : ℝ) * bf.entries / bf.m) := by ring
    rw [harg]

theorem specFPR_base_nonneg (k n m : ℕ) :
    0 ≤ 1 - Real.exp (-((k : ℝ) * n / m)) := by
  have harg : -((k : ℝ) * n / m) ≤ 0 := by
    apply neg_nonpos.mpr
    positivity
  have h1 : Real.exp (-((k : ℝ) * n / m)) ≤ 1 := by
    calc Real.exp (-((k : ℝ) * n / m)) ≤ Real.exp 0 := Real.exp_le_exp.mpr harg
    _ = 1 := Real.exp_zero
  linarith

theorem specFPR_nonneg (k n m : ℕ) : 0 ≤ specFPR k n m :=
  Real.rpow_nonneg (specFPR_base_nonneg k n m) _

theorem specFPR_mono_entries (k m n1 n2 : ℕ) (h : n1 ≤ n2) :
    specFPR k n1 m ≤ specFPR k n2 m := by
  apply Real.rpow_le_rpow (specFPR_base_nonneg k n1 m) ?_ (by positivity)
  apply sub_le_sub_left
  apply Real.exp_le_exp.mpr
  apply neg_le_neg
  rcases Nat.eq_zero_or_pos m with hm | hm
  · subst hm
    simp
  · have hm' : (0 : ℝ) < m := by exact_mod_cast hm
    apply (div_le_div_iff_of_pos_right hm').mpr
    apply mul_le_mul_of_nonneg_left _ (by positivity)
    exact_mod_cast h

/-! Variant 2 field preservation under `Add`. -/

theorem addIdx_eq (H : ℕ → List T → ℕ) (item : T) (bf : Filter2 T) (i : ℕ) :
    Filter2.addIdx H item bf i =
      { bf with hasher := { seed := bf.seeds.getD i 0, data := [item] },
                bits := setBit bf.bits (H (bf.seeds.getD i 0) [item] % bf.m) } := rfl

theorem foldl_addIdx_k (H : ℕ → List T → ℕ) (item : T) (is : List ℕ)
    (bf : Filter2 T) : (is.foldl (Filter2.addIdx H item) bf).k = bf.k := by
  induction is generalizing bf with
  | nil => rfl
  | cons i rest ih => simpa [addIdx_eq] using ih _

theorem foldl_addIdx_m (H : ℕ → List T → ℕ) (item : T) (is : List ℕ)
    (bf : Filter2 T) : (is.foldl (Filter2.addIdx H item) bf).m = bf.m := by
  induction is generalizing bf with
  | nil => rfl
  | cons i rest ih => simpa [addIdx_eq] using ih _

theorem foldl_addIdx_seeds (H : ℕ → List T → ℕ) (item : T) (is : List ℕ)
    (bf : Filter2 T) : (is.foldl (Filter2.addIdx H item) bf).seeds = bf.seeds := by
  induction is generalizing bf with
  | nil => rfl
  | cons i rest ih => simpa [addIdx_eq] using ih _

theorem foldl_addIdx_entries (H : ℕ → List T → ℕ) (item : T) (is : List ℕ)
    (bf : Filter2 T) : (is.foldl (Filter2.addIdx H item) bf).entries = bf.entries := by
  induction is generalizing bf with
  | nil => rfl
  | cons i rest ih => simpa [addIdx_eq] using ih _

theorem Add2_entries (H : ℕ → List T → ℕ) (bf : Filter2 T) (item : T) :
    (bf.Add H item).entries = bf.entries + 1 := by
  simp [Filter2.Add, foldl_addIdx_entries]

theorem Add2_k (H : ℕ → List T → ℕ) (bf : Filter2 T) (item : T) :
    (bf.Add H item).k = bf.k := by
  simp [Filter2.Add, foldl_addIdx_k]

theorem Add2_m (H : ℕ → List T → ℕ) (bf : Filter2 T) (item : T) :
    (bf.Add H item).m = bf.m := by
  simp [Filter2.Add, foldl_addIdx_m]

/-! The claims. -/

/-- C1: no false negatives.  For every filter constructed with
`expectedItems ≥ 1` and `falsePositiveRate ∈ (0,1)` (and any prior `Add`
calls), after `Add x` the call `Contains x` returns `true`, and it still
returns `true` after any further sequence of `Add` calls on arbitrary
items. -/
theorem no_false_negatives (H : ℕ → List T → ℕ) (n : ℕ) (p : ℝ) (sg : ℕ → ℕ)
    (pre post : List T) (x : T) (hn : 1 ≤ n) (hp0 : 0 < p) (hp1 : p < 1) :
    Filter.Contains H
      (applyAddList H
        (Filter.Add H (applyAddList H (NewBloomFilter T n p sg) pre) x) post)
      x = true := by
  have hwf : (applyAddList H (NewBloomFilter T n p sg) pre).WF :=
    WF_applyAddList H _ pre (WF_new T n p sg hn hp0 hp1)
  exact contains_after_adds H _ x post hwf

/-- Witness for C1 at `n = 1`, `p = 1/2`, with a concrete hash family,
seed generator and items. -/
theorem no_false_negatives_witness :
    (1 ≤ 1) ∧ (0 < (1/2 : ℝ)) ∧ ((1/2 : ℝ) < 1) ∧
    Filter.Contains H0
      (applyAddList H0
        (Filter.Add H0 (applyAddList H0 (NewBloomFilter ℕ 1 (1/2) (fun _ => 3)) [2]) 5)
        [7]) 5 = true :=
  ⟨le_refl 1, by norm_num, by norm_num,
    no_false_negatives H0 1 (1/2) (fun _ => 3) [2] [7] 5 (le_refl 1)
      (by norm_num) (by norm_num)⟩

/-- C6: bit-array monotonicity.  Across any sequence of operations (`Add`
calls, and `Contains` calls which never touch the bits), every bit that is
set in the packed words stays set; no operation clears a bit. -/
theorem bits_monotonic (H : ℕ → List T → ℕ) (bf : Filter T) (ops : List (Op T))
    (i j : ℕ) (h : (bf.bits.getD i 0).testBit j = true) :
    ((applyOps H bf ops).bits.getD i 0).testBit j = true :=
  applyOps_testBit_mono H bf ops i j h

/-- Witness for C6 on a concrete filter whose word 0 has bit 0 set. -/
theorem bits_monotonic_witness :
    ((bf0.bits.getD 0 0).testBit 0 = true) ∧
    (((applyOps H0 bf0 [Op.add 3, Op.contains 2]).bits.getD 0 0).testBit 0 = true) :=
  ⟨by decide, bits_monotonic H0 bf0 [Op.add 3, Op.contains 2] 0 0 (by decide)⟩

/-- C7 (amended): `Contains` returns a boolean and leaves `bits`, `m`,
`seeds` and `entries` unchanged; the reusable hashing scratch (`hasher`)
is, however, mutated by the hash computations. -/
theorem contains_pure_read (H : ℕ → List T → ℕ) (bf : Filter T) (item : T) :
    (bf.containsSt H item).2.bits = bf.bits ∧
    (bf.containsSt H item).2.m = bf.m ∧
    (bf.containsSt H item).2.seeds = bf.seeds ∧
    (bf.containsSt H item).2.entries = bf.entries :=
  ⟨containsAux_snd_bits H item bf.seeds bf, containsAux_snd_m H item bf.seeds bf,
    containsAux_snd_seeds H item bf.seeds bf,
    containsAux_snd_entries H item bf.seeds bf⟩

/-- Counterexample to C7 as stated: `Contains` does not leave every field of
the filter unchanged — on a concrete filter the hashing scratch state after
`Contains` differs from the one before. -/
theorem contains_mutates_hasher :
    (bf0.containsSt H0 42).2.hasher ≠ bf0.hasher := by decide

/-- C9: determinism of hashing.  The bit positions computed for an item by
the stateful hashing loop are a pure function of the stored seeds and `m`
(independent of the hashing scratch), are unchanged by any sequence of
operations on the filter, and both `Add` (the bits it sets) and `Contains`
(the test it returns) are determined by exactly these positions. -/
theorem hashing_deterministic (H : ℕ → List T → ℕ) (bf : Filter T)
    (ops : List (Op T)) (item : T) :
    (applyOps H bf ops).hashPositions H item = bf.hashPositions H item ∧
    bf.hashPositions H item = (bf.seeds.map fun s => H s [item] % bf.m) ∧
    (bf.Add H item).bits = setBits bf.bits (bf.hashPositions H item) ∧
    bf.Contains H item = (bf.hashPositions H item).all fun pos => testPos bf.bits pos := by
  refine ⟨?_, ?_, ?_, ?_⟩
  · rw [hashPositions_eq_positions, hashPositions_eq_positions]
    exact positions_congr H _ bf item (applyOps_seeds H bf ops) (applyOps_m H bf ops)
  · rw [hashPositions_eq_positions, Filter.positions]
  · rw [Add_bits, hashPositions_eq_positions]
  · rw [hashPositions_eq_positions]
    apply Bool.eq_iff_iff.mpr
    rw [Contains_iff]
    simp [List.all_eq_true]

/-- C2: the estimated false-positive rate is exactly `0` when `entries = 0`,
and otherwise equals `(1 - e^(-k*entries/m))^k` computed from the filter's
current hash-function count (`len(seeds)` in variant 1, the `k` field in
variant 2), `entries` and `m`. -/
theorem estimated_fpr_formula (bf : Filter T) (bf2 : Filter2 T) :
    bf.EstimatedFalsePositiveRate =
      (if bf.entries = 0 then 0 else specFPR bf.seeds.length bf.entries bf.m) ∧
    bf2.EstimatedFalsePositiveRate =
      (if bf2.entries = 0 then 0 else specFPR bf2.k bf2.entries bf2.m) :=
  ⟨fpr_eq bf, fpr2_eq bf2⟩

/-- C5: each `Add` call leaves the estimated false-positive rate greater than
or equal to its previous value, including the transition from `entries = 0`
to `entries = 1`; this holds for both variants. -/
theorem fpr_monotone (H : ℕ → List T → ℕ) (bf : Filter T) (bf2 : Filter2 T)
    (x : T) :
    bf.EstimatedFalsePositiveRate ≤ (bf.Add H x).EstimatedFalsePositiveRate ∧
    bf2.EstimatedFalsePositiveRate ≤ (bf2.Add H x).EstimatedFalsePositiveRate := by
  constructor
  · rw [fpr_eq, fpr_eq, Add_entries, Add_seeds, Add_m,
      if_neg (Nat.succ_ne_zero bf.entries)]
    by_cases h : bf.entries = 0
    · rw [if_pos h]
      exact specFPR_nonneg _ _ _
    · rw [if_neg h]
      exact specFPR_mono_entries _ _ _ _ (Nat.le_succ _)
  · rw [fpr2_eq, fpr2_eq, Add2_entries, Add2_k, Add2_m,
      if_neg (Nat.succ_ne_zero bf2.entries)]
    by_cases h : bf2.entries = 0
    · rw [if_pos h]
      exact specFPR_nonneg _ _ _
    · rw [if_neg h]
      exact specFPR_mono_entries _ _ _ _ (Nat.le_succ _)

/-- C3: for `expectedItems ≥ 1` and `falsePositiveRate ∈ (0,1)`, the
bit-array size computed at construction (in both variants) is exactly
`ceil(-n * ln(p) / (ln 2)^2)`. -/
theorem bit_size_formula (n : ℕ) (p : ℝ) (hn : 1 ≤ n) (hp0 : 0 < p)
    (hp1 : p < 1) :
    ((bloomParams n p).1 : ℤ) = specOptimalBits n p ∧
    ((optimalBitArraySize n p : ℕ) : ℤ) = specOptimalBits n p := by
  have h2 : Real.log 2 ^ (2 : ℝ) = Real.log 2 ^ (2 : ℕ) := by
    rw [← Real.rpow_natCast (Real.log 2) 2]
    norm_num
  have hlp : Real.log p < 0 := Real.log_neg hp0 hp1
  have hl2 : 0 < Real.log 2 := Real.log_pos one_lt_two
  have hn' : (0 : ℝ) < n := by exact_mod_cast hn
  have hx : 0 ≤ -(n : ℝ) * Real.log p / Real.log 2 ^ (2 : ℕ) := by
    apply le_of_lt
    apply div_pos
    · nlinarith
    · exact pow_pos hl2 2
  constructor
  · simp only [bloomParams, specOptimalBits]
    rw [h2]
    exact Int.natCast_ceil_eq_ceil hx
  · simp only [optimalBitArraySize, specOptimalBits]
    rw [h2]
    exact Int.natCast_ceil_eq_ceil hx

/-- Witness for C3 at `n = 1`, `p = 1/2`. -/
theorem bit_size_formula_witness :
    (1 ≤ 1) ∧ (0 < (1/2 : ℝ)) ∧ ((1/2 : ℝ) < 1) ∧
    (((bloomParams 1 (1/2)).1 : ℤ) = specOptimalBits 1 (1/2) ∧
      ((optimalBitArraySize 1 (1/2) : ℕ) : ℤ) = specOptimalBits 1 (1/2)) :=
  ⟨le_refl 1, by norm_num, by norm_num,
    bit_size_formula 1 (1/2) (le_refl 1) (by norm_num) (by norm_num)⟩

/-- C8: totality after construction.  For `expectedItems ≥ 1` and
`falsePositiveRate ∈ (0,1)`, both sizing variants yield `m ≥ 1` and
`k ≥ 1`; consequently, in every state reachable by `Add` calls from a
freshly constructed filter, `m` stays positive (no modulo-by-zero), every
computed bit position is strictly below `m`, and every word index is within
the backing word list. -/
theorem construction_total (H : ℕ → List T → ℕ) (n : ℕ) (p : ℝ) (sg : ℕ → ℕ)
    (hn : 1 ≤ n) (hp0 : 0 < p) (hp1 : p < 1) :
    1 ≤ (bloomParams n p).1 ∧ 1 ≤ (bloomParams n p).2 ∧
    1 ≤ optimalBitArraySize n p ∧
    1 ≤ optimalHashFunctions n (optimalBitArraySize n p) ∧
    ∀ pre : List T, ∀ item : T, ∀ s : ℕ,
      0 < (applyAddList H (NewBloomFilter T n p sg) pre).m ∧
      H s [item] % (applyAddList H (NewBloomFilter T n p sg) pre).m <
        (applyAddList H (NewBloomFilter T n p sg) pre).m ∧
      H s [item] % (applyAddList H (NewBloomFilter T n p sg) pre).m / 64 <
        (applyAddList H (NewBloomFilter T n p sg) pre).bits.length := by
  refine ⟨bloomParams_fst_pos n p hn hp0 hp1, bloomParams_snd_pos n p,
    optimalBitArraySize_pos n p hn hp0 hp1, optimalHashFunctions_pos n _,
    ?_⟩
  intro pre item s
  have hwf : (applyAddList H (NewBloomFilter T n p sg) pre).WF :=
    WF_applyAddList H _ pre (WF_new T n p sg hn hp0 hp1)
  have hm := hwf.1
  have hlt : H s [item] % (applyAddList H (NewBloomFilter T n p sg) pre).m <
      (applyAddList H (NewBloomFilter T n p sg) pre).m := Nat.mod_lt _ hm
  exact ⟨hm, hlt, wordIndex_lt _ _ _ hwf.2 hlt⟩

/-- Witness for C8 at `n = 1`, `p = 1/2`, with a concrete hash family and
seed generator. -/
theorem construction_total_witness :
    (1 ≤ 1) ∧ (0 < (1/2 : ℝ)) ∧ ((1/2 : ℝ) < 1) ∧
    (1 ≤ (bloomParams 1 (1/2)).1 ∧ 1 ≤ (bloomParams 1 (1/2)).2 ∧
      1 ≤ optimalBitArraySize 1 (1/2) ∧
      1 ≤ optimalHashFunctions 1 (optimalBitArraySize 1 (1/2)) ∧
      ∀ pre : List ℕ, ∀ item : ℕ, ∀ s : ℕ,
        0 < (applyAddList H0 (NewBloomFilter ℕ 1 (1/2) (fun _ => 3)) pre).m ∧
        H0 s [item] % (applyAddList H0 (NewBloomFilter ℕ 1 (1/2) (fun _ => 3)) pre).m <
          (applyAddList H0 (NewBloomFilter ℕ 1 (1/2) (fun _ => 3)) pre).m ∧
        H0 s [item] % (applyAddList H0 (NewBloomFilter ℕ 1 (1/2) (fun _ => 3)) pre).m / 64 <
          (applyAddList H0 (NewBloomFilter ℕ 1 (1/2) (fun _ => 3)) pre).bits.length) :=
  ⟨le_refl 1, by norm_num, by norm_num,
    construction_total H0 1 (1/2) (fun _ => 3) (le_refl 1) (by norm_num) (by norm_num)⟩

/-! Equivalence of the two operational variants. -/

theorem hashItem2_fst (H : ℕ → List T → ℕ) (bf : Filter2 T) (item : T) (s : ℕ) :
    (bf.hashItem H item s).1 = H s [item] := rfl

theorem hashItem2_snd (H : ℕ → List T → ℕ) (bf : Filter2 T) (item : T) (s : ℕ) :
    (bf.hashItem H item s).2 =
      { bf with hasher := { seed := s, data := [item] } } := rfl

theorem addIdx_toF1 (H : ℕ → List T → ℕ) (item : T) (bf : Filter2 T) (i : ℕ) :
    toF1 (Filter2.addIdx H item bf i) =
      Filter.addStep H item (toF1 bf) (bf.seeds.getD i 0) := rfl

theorem foldl_addIdx_toF1 (H : ℕ → List T → ℕ) (item : T) (is : List ℕ)
    (bf : Filter2 T) :
    toF1 (is.foldl (Filter2.addIdx H item) bf) =
      (is.map fun i => bf.seeds.getD i 0).foldl (Filter.addStep H item) (toF1 bf) := by
  induction is generalizing bf with
  | nil => rfl
  | cons i rest ih =>
    simp only [List.foldl_cons, List.map_cons]
    rw [ih (Filter2.addIdx H item bf i)]
    have hs : (Filter2.addIdx H item bf i).seeds = bf.seeds := rfl
    have hstep : toF1 (Filter2.addIdx H item bf i) =
        Filter.addStep H item (toF1 bf) (bf.seeds.getD i 0) := rfl
    simp only [hs, hstep]

theorem Add_toF1 (H : ℕ → List T → ℕ) (bf : Filter2 T) (x : T)
    (hk : bf.k = bf.seeds.length) :
    toF1 (bf.Add H x) = (toF1 bf).Add H x := by
  rw [Filter2.Add, Filter.Add]
  rw [foldl_addIdx_toF1]
  have h1 : (List.range bf.k).map
      (fun i => ({ bf with entries := bf.entries + 1 } : Filter2 T).seeds.getD i 0) =
      bf.seeds := by
    show (List.range bf.k).map (fun i => bf.seeds.getD i 0) = bf.seeds
    rw [hk]
    exact range_map_getD bf.seeds
  rw [h1]
  rfl

theorem containsAux2_fst_toF1 (H : ℕ → List T → ℕ) (item : T) (is : List ℕ)
    (bf : Filter2 T) :
    (containsAux2 H item is bf).1 =
      (containsAux H item (is.map fun i => bf.seeds.getD i 0) (toF1 bf)).1 := by
  induction is generalizing bf with
  | nil => rfl
  | cons i rest ih =>
    simp only [containsAux2, containsAux, List.map_cons, hashItem2_snd,
      hashItem2_fst, hashItem_snd, hashItem_fst, toF1]
    split
    case isTrue h => rfl
    case isFalse h =>
      have hrec := ih { bf with hasher := { seed := bf.seeds.getD i 0, data := [item] } }
      simpa [toF1] using hrec

theorem Contains_toF1 (H : ℕ → List T → ℕ) (bf : Filter2 T) (x : T)
    (hk : bf.k = bf.seeds.length) :
    bf.Contains H x = (toF1 bf).Contains H x := by
  rw [Filter2.Contains, Filter2.containsSt, containsAux2_fst_toF1,
    Filter.Contains, Filter.containsSt]
  have h1 : (List.range bf.k).map (fun i => bf.seeds.getD i 0) = bf.seeds := by
    rw [hk]
    exact range_map_getD bf.seeds
  rw [h1]
  rfl

theorem fpr_toF1 (bf : Filter2 T) (hk : bf.k = bf.seeds.length) :
    bf.EstimatedFalsePositiveRate = (toF1 bf).EstimatedFalsePositiveRate := by
  rw [fpr2_eq, fpr_eq, hk]
  rfl

/-! Numeric evaluation of the two sizing variants at the input
`(n, p) = (1, e^(-1/2))`, where they disagree on `k`. -/

theorem log_sq_bounds :
    Real.log 2 ^ (2 : ℕ) < 1/2 ∧ (1/4 : ℝ) < Real.log 2 ^ (2 : ℕ) := by
  have hL1 : 0.6931471803 < Real.log 2 := Real.log_two_gt_d9
  have hL2 : Real.log 2 < 0.6931471808 := Real.log_two_lt_d9
  have hL0 : (0 : ℝ) < Real.log 2 := by linarith
  constructor
  · have h1 : Real.log 2 * Real.log 2 < 0.6931471808 * 0.6931471808 :=
      mul_lt_mul'' hL2 hL2 (le_of_lt hL0) (le_of_lt hL0)
    have h2 : (0.6931471808 : ℝ) * 0.6931471808 < 1/2 := by norm_num
    calc Real.log 2 ^ (2 : ℕ) = Real.log 2 * Real.log 2 := by ring
    _ < 1/2 := by linarith
  · have h1 : (0.6931471803 : ℝ) * 0.6931471803 < Real.log 2 * Real.log 2 :=
      mul_lt_mul'' hL1 hL1 (by norm_num) (by norm_num)
    have h2 : (1/4 : ℝ) < 0.6931471803 * 0.6931471803 := by norm_num
    calc (1/4 : ℝ) < 0.6931471803 * 0.6931471803 := h2
    _ < Real.log 2 * Real.log 2 := h1
    _ = Real.log 2 ^ (2 : ℕ) := by ring

theorem bloomParams_at_cx : bloomParams 1 (Real.exp (-(1/2 : ℝ))) = (2, 1) := by
  have hL1 : 0.6931471803 < Real.log 2 := Real.log_two_gt_d9
  have hL2 : Real.log 2 < 0.6931471808 := Real.log_two_lt_d9
  have hL0 : (0 : ℝ) < Real.log 2 := by linarith
  have hrp : Real.log 2 ^ (2 : ℝ) = Real.log 2 ^ (2 : ℕ) := by
    rw [← Real.rpow_natCast (Real.log 2) 2]
    norm_num
  have hsq := log_sq_bounds
  have hm : (-(1 : ℝ) * Real.log (Real.exp (-(1/2 : ℝ))) / Real.log 2 ^ (2 : ℝ)) =
      (1/2 : ℝ) / Real.log 2 ^ (2 : ℕ) := by
    rw [Real.log_exp, hrp]
    ring
  simp only [bloomParams, Nat.cast_one]
  rw [hm]
  have hmceil : ⌈(1/2 : ℝ) / Real.log 2 ^ (2 : ℕ)⌉₊ = 2 := by
    rw [Nat.ceil_eq_iff (by norm_num)]
    constructor
    · show ((2 - 1 : ℕ) : ℝ) < (1/2 : ℝ) / Real.log 2 ^ (2 : ℕ)
      have hpos : (0 : ℝ) < Real.log 2 ^ (2 : ℕ) := pow_pos hL0 2
      rw [lt_div_iff₀ hpos]
      push_cast
      linarith [hsq.1]
    · have hpos : (0 : ℝ) < Real.log 2 ^ (2 : ℕ) := pow_pos hL0 2
      rw [div_le_iff₀ hpos]
      push_cast
      linarith [hsq.2]
  have hkceil : ⌈(1/2 : ℝ) / Real.log 2 ^ (2 : ℕ) / 1 * Real.log 2⌉₊ = 1 := by
    have he : (1/2 : ℝ) / Real.log 2 ^ (2 : ℕ) / 1 * Real.log 2 =
        1 / (2 * Real.log 2) := by
      field_simp
      ring
    rw [he, Nat.ceil_eq_iff (by norm_num)]
    constructor
    · show ((1 - 1 : ℕ) : ℝ) < 1 / (2 * Real.log 2)
      push_cast
      positivity
    · rw [div_le_iff₀ (by positivity)]
      push_cast
      linarith
  rw [hmceil, hkceil]
  norm_num

theorem optimalBitArraySize_at_cx :
    optimalBitArraySize 1 (Real.exp (-(1/2 : ℝ))) = 2 := by
  have h : optimalBitArraySize 1 (Real.exp (-(1/2 : ℝ))) =
      (bloomParams 1 (Real.exp (-(1/2 : ℝ)))).1 := rfl
  rw [h, bloomParams_at_cx]

theorem optimalHashFunctions_at_cx : optimalHashFunctions 1 2 = 2 := by
  have hL1 : 0.6931471803 < Real.log 2 := Real.log_two_gt_d9
  have hL2 : Real.log 2 < 0.6931471808 := Real.log_two_lt_d9
  simp only [optimalHashFunctions]
  have he : ((2 : ℕ) : ℝ) / ((1 : ℕ) : ℝ) * Real.log 2 = 2 * Real.log 2 := by
    push_cast
    ring
  rw [he]
  have hceil : ⌈(2 : ℝ) * Real.log 2⌉₊ = 2 := by
    rw [Nat.ceil_eq_iff (by norm_num)]
    constructor
    · show ((2 - 1 : ℕ) : ℝ) < 2 * Real.log 2
      push_cast
      linarith
    · push_cast
      linarith
  rw [hceil]
  norm_num

/-- C4 (amended): the hash-function count is `max(ceil((m/n) * ln 2), 1)`,
where `optimalHashFunctions` (variant 2) applies the formula to the rounded
bit-array size `m`, while `bloomParams` (variant 1) applies the same formula
to the unrounded real bit size `-n * ln(p) / (ln 2)^2`; the two can
disagree. -/
theorem hash_count_formula (n m : ℕ) (p : ℝ) :
    optimalHashFunctions n m = max ⌈(m : ℝ) / (n : ℝ) * Real.log 2⌉₊ 1 ∧
    (bloomParams n p).2 =
      max ⌈-(n : ℝ) * Real.log p / Real.log 2 ^ (2 : ℝ) / (n : ℝ) * Real.log 2⌉₊ 1 := by
  constructor
  · simp only [optimalHashFunctions]
    split <;> omega
  · simp only [bloomParams]

/-- Counterexample to C4 as stated: at `n = 1`, `p = e^(-1/2)` the
hash-function count computed by variant 1 construction (`bloomParams`) is
not `max(ceil((m/n) * ln 2), 1)` for the bit-array size `m` it computed
(`k = 1` but the formula on the rounded `m = 2` gives `2`). -/
theorem hash_count_counterexample :
    (bloomParams 1 (Real.exp (-(1/2 : ℝ)))).2 ≠
      max ⌈((bloomParams 1 (Real.exp (-(1/2 : ℝ)))).1 : ℝ) / ((1 : ℕ) : ℝ) *
        Real.log 2⌉₊ 1 := by
  rw [bloomParams_at_cx]
  show (1 : ℕ) ≠ max ⌈((2 : ℕ) : ℝ) / ((1 : ℕ) : ℝ) * Real.log 2⌉₊ 1
  have h2 : ⌈((2 : ℕ) : ℝ) / ((1 : ℕ) : ℝ) * Real.log 2⌉₊ = 2 := by
    have hL1 : 0.6931471803 < Real.log 2 := Real.log_two_gt_d9
    have hL2 : Real.log 2 < 0.6931471808 := Real.log_two_lt_d9
    have he : ((2 : ℕ) : ℝ) / ((1 : ℕ) : ℝ) * Real.log 2 = 2 * Real.log 2 := by
      push_cast
      ring
    rw [he, Nat.ceil_eq_iff (by norm_num)]
    constructor
    · show ((2 - 1 : ℕ) : ℝ) < 2 * Real.log 2
      push_cast
      linarith
    · push_cast
      linarith
  rw [h2]
  omega

/-- C10 (amended): both sizing variants compute the same bit-array size `m`,
but their hash-function counts can differ (variant 1 derives `k` from the
unrounded bit size); and given the same state with `k = len(seeds)`, the two
variants' `Add`, `Contains` and `EstimatedFalsePositiveRate` produce
identical results (under the `toF1` correspondence dropping the `k`
field). -/
theorem variants_equiv (H : ℕ → List T → ℕ) (n : ℕ) (p : ℝ) (bf2 : Filter2 T)
    (x : T) (hk : bf2.k = bf2.seeds.length) :
    (bloomParams n p).1 = optimalBitArraySize n p ∧
    toF1 (bf2.Add H x) = (toF1 bf2).Add H x ∧
    bf2.Contains H x = (toF1 bf2).Contains H x ∧
    bf2.EstimatedFalsePositiveRate = (toF1 bf2).EstimatedFalsePositiveRate :=
  ⟨rfl, Add_toF1 H bf2 x hk, Contains_toF1 H bf2 x hk, fpr_toF1 bf2 hk⟩

/-- Witness for C10 (amended) on a concrete variant 2 filter with
`k = len(seeds)`. -/
theorem variants_equiv_witness :
    (bf2c.k = bf2c.seeds.length) ∧
    ((bloomParams 1 (1/2)).1 = optimalBitArraySize 1 (1/2) ∧
      toF1 (bf2c.Add H0 9) = (toF1 bf2c).Add H0 9 ∧
      bf2c.Contains H0 9 = (toF1 bf2c).Contains H0 9 ∧
      bf2c.EstimatedFalsePositiveRate = (toF1 bf2c).EstimatedFalsePositiveRate) :=
  ⟨rfl, variants_equiv H0 1 (1/2) bf2c 9 rfl⟩

/-- Counterexample to C10 as stated: at `n = 1`, `p = e^(-1/2)` the two
sizing variants produce different `(m, k)` pairs (`(2, 1)` for `bloomParams`
against `(2, 2)` for `optimalBitArraySize`/`optimalHashFunctions`). -/
theorem variants_counterexample :
    bloomParams 1 (Real.exp (-(1/2 : ℝ))) ≠
      (optimalBitArraySize 1 (Real.exp (-(1/2 : ℝ))),
        optimalHashFunctions 1 (optimalBitArraySize 1 (Real.exp (-(1/2 : ℝ))))) := by
  rw [bloomParams_at_cx, optimalBitArraySize_at_cx, optimalHashFunctions_at_cx]
  intro h
  have h2 := congrArg Prod.snd h
  simp at h2

end Bloom
